import Mathlib

/-!
Verification of the `citation_map` paper-analysis pipeline (`analyze_papers.py`).

Strings are modelled as `List Char` with ASCII semantics: Python's `str.lower`
is modelled on the ASCII range (the final normalization step keeps only runs of
`a`-`z`, so non-ASCII case mapping is not observable in normalized output), and
`re`'s `\d` / `[a-z]` classes are modelled over ASCII code points.

The opaque page-extraction collaborator (`layout_scanner.get_pages`) is a
parameter `gp : List Char → Option (List (List Char))`: `some pages` models a
returned page list, `none` models a returned value that is not a sized
sequence, so that taking its length raises `TypeError` (the error signal the
source catches).  A second, `Except`-layered variant models the capability
additionally raising an exception from the call itself.
-/

namespace AnalyzePapers

/-- The 32 characters of Python's `string.punctuation`
(`!"#$%&'()*+,-./:;<=>?@[\]^_` + backtick + `{|}~`), by ASCII code point. -/
def isPunct (c : Char) : Bool :=
  (33 ≤ c.toNat && c.toNat ≤ 47) || (58 ≤ c.toNat && c.toNat ≤ 64) ||
    (91 ≤ c.toNat && c.toNat ≤ 96) || (123 ≤ c.toNat && c.toNat ≤ 126)

/-- `[a-z]`, by ASCII code point (97-122). -/
def isLowerAlpha (c : Char) : Bool := 97 ≤ c.toNat && c.toNat ≤ 122

/-- `\d` restricted to ASCII `0`-`9` (48-57).  `re.sub(r'\d+', '', ·)` deletes
every character of every digit run, i.e. every digit character. -/
def isDigitChar (c : Char) : Bool := 48 ≤ c.toNat && c.toNat ≤ 57

/-- Python `str.lower`, ASCII fragment: map `A`-`Z` (65-90) to `a`-`z`. -/
def toLowerChar (c : Char) : Char :=
  if 65 ≤ c.toNat && c.toNat ≤ 90 then Char.ofNat (c.toNat + 32) else c

/-- Python `str.lower` over a whole string. -/
def pyLower (s : List Char) : List Char := s.map toLowerChar

/-- The ASCII whitespace characters stripped by Python `str.strip()`. -/
def isPySpace (c : Char) : Bool :=
  c.toNat = 32 || c.toNat = 9 || c.toNat = 10 || c.toNat = 13 ||
    c.toNat = 11 || c.toNat = 12

/-- Python `str.strip()`: drop leading and trailing whitespace. -/
def pyStrip (s : List Char) : List Char :=
  ((s.dropWhile isPySpace).reverse.dropWhile isPySpace).reverse

/-- Scanner for `re.findall(r'[a-z]+', s)`: `acc` holds the reversed current
run of lowercase letters; a non-letter (or the end) closes the run. -/
def tokenizeAux : List Char → List Char → List (List Char)
  | [], acc => if acc.isEmpty then [] else [acc.reverse]
  | c :: rest, acc =>
    if isLowerAlpha c then tokenizeAux rest (c :: acc)
    else if acc.isEmpty then tokenizeAux rest []
    else acc.reverse :: tokenizeAux rest []

/-- `re.findall(r'[a-z]+', s)`: the maximal runs of lowercase letters of `s`,
in order. -/
def tokenize (s : List Char) : List (List Char) := tokenizeAux s []

/-- Python `sep.join(parts)`. -/
def joinSep (sep : List Char) : List (List Char) → List Char
  | [] => []
  | [t] => t
  | t :: ts => t ++ sep ++ joinSep sep ts

/-- `pre_process` of `analyze_papers.py` (the Text Normalizer): lowercase,
delete punctuation, delete line breaks, delete digit runs, then keep only the
maximal `[a-z]+` runs rejoined with single spaces. -/
def pre_process (text : List Char) : List Char :=
  let text := pyLower text
  let text := text.filter (fun c => !isPunct c)
  let text := text.filter (fun c => !(c == '\r' || c == '\n'))
  let text := text.filter (fun c => !isDigitChar c)
  joinSep [' '] (tokenize text)

/-- One bibliography entry's metadata dict, as stored by `read_titles`:
`{'title': …, 'author': …, 'file': …, 'year': …}`. -/
structure Metadata where
  title : List Char
  author : List Char
  file : List Char
  year : List Char
deriving DecidableEq

/-- `str.replace(' ', '')`: delete every space. -/
def removeSpaces (s : List Char) : List Char := s.filter fun c => !(c == ' ')

/-- Python's substring test `needle in haystack`. -/
def isSubstringOf (needle : List Char) : List Char → Bool
  | [] => needle.isEmpty
  | c :: rest => needle.isPrefixOf (c :: rest) || isSubstringOf needle rest

/-- `find_citations` of `analyze_papers.py` (the Citation Matcher): keep, in
order, every title other than this paper's own normalized title whose
space-stripped form occurs in the space-stripped normalized paper text.  The
advisory log (second component of the Python return) is omitted. -/
def find_citations (paper_text : List Char) (all_titles : List (List Char))
    (metadata : Metadata) : List (List Char) :=
  let fixed_paper_title := pre_process metadata.title
  let fixed_text := pre_process paper_text
  all_titles.filter fun title =>
    !(title == fixed_paper_title) &&
      isSubstringOf (removeSpaces title) (removeSpaces fixed_text)

/-- `pdf_to_text_list` of `analyze_papers.py`.  The collaborator
`layout_scanner.get_pages` is the parameter `gp`; `gp loc = none` models it
returning a value without a length (the `try/except TypeError` around
`len(pages)` catches that and yields `(-1, [])`); `pages[-10:]` is
`drop (length - 10)`. -/
def pdf_to_text_list (gp : List Char → Option (List (List Char)))
    (file_loc : List Char) : Int × List (List Char) :=
  match gp file_loc with
  | none => (-1, [])
  | some pages => (pages.length, pages.drop (pages.length - 10))

/-- The constant suffix `".pdf"`. -/
def pdfSuffix : List Char := ".pdf".toList

/-- The `for file in all_files: if file.lower().strip().endswith(".pdf")`
scan of `process_pdf`: first token whose lowercased, stripped form ends in
`.pdf`. -/
def first_pdf_of (all_files : List (List Char)) : Option (List Char) :=
  all_files.find? fun f => pdfSuffix.isSuffixOf (pyStrip (pyLower f))

/-- `process_pdf` of `analyze_papers.py`, as `(success?, text)` — the
`(bool, text)` of the Python triple; the advisory `log` is omitted and
`write_to_disk` is `False` as in the pipeline's call site. -/
def process_pdf (gp : List Char → Option (List (List Char)))
    (metadata : Metadata) : Bool × List Char :=
  if metadata.file.length < 1 then
    (false, "Missing Zotero file attachment".toList)
  else
    match first_pdf_of (metadata.file.splitOn ';') with
    | none => (false, "No PDF File attached to article entry".toList)
    | some first_pdf =>
      let r := pdf_to_text_list gp first_pdf
      let all_pages := joinSep ['\n'] r.2
      (decide (0 < all_pages.length), all_pages)

/-- One data row of the Zotero CSV (columns 2, 3, 4, 37). -/
structure Row where
  year : List Char
  author : List Char
  title : List Char
  file : List Char
deriving DecidableEq

/-- The metadata dict built from a CSV row by `read_titles`. -/
def rowMetadata (r : Row) : Metadata := ⟨r.title, r.author, r.file, r.year⟩

/-- `titles[k] = v` on a Python dict modelled as an association list in
insertion order: overwrite the value at an existing key in place, otherwise
append the binding. -/
def dictInsert (k : List Char) (v : Metadata)
    (d : List (List Char × Metadata)) : List (List Char × Metadata) :=
  if d.any fun p => p.1 == k then
    d.map fun p => if p.1 == k then (p.1, v) else p
  else d ++ [(k, v)]

/-- `titles_dict[k]` (total here: the pipeline only looks up keys of the
dict, where Python's `KeyError` cannot occur). -/
def dict_get (d : List (List Char × Metadata)) (k : List Char) : Metadata :=
  ((d.find? fun p => p.1 == k).map Prod.snd).getD ⟨[], [], [], []⟩

/-- `read_titles` of `analyze_papers.py`: one dict entry per CSV row, keyed by
the normalized title (`pre_process(r[TITLE_I])`), later rows overwriting
earlier ones with the same key. -/
def read_titles (rows : List Row) : List (List Char × Metadata) :=
  rows.foldl (fun d r => dictInsert (pre_process r.title) (rowMetadata r) d) []

/-- `list(titles_dict.keys())`. -/
def title_ids_of (d : List (List Char × Metadata)) : List (List Char) :=
  d.map Prod.fst

/-- The rows of the output nodes table, each as `(Id, metadata)`: one row per
`title in title_ids`, carrying that entry's metadata (from which the Label,
Author and PrettyName columns are rendered). -/
def nodes_rows (d : List (List Char × Metadata)) : List (List Char × Metadata) :=
  (title_ids_of d).map fun title => (title, dict_get d title)

/-- `article_worker` of `analyze_papers.py`, as
`(title, pdf_result, text, cited_papers)`; the printed log is omitted. -/
def article_worker (gp : List Char → Option (List (List Char)))
    (all_titles : List (List Char)) (dict_item : List Char × Metadata) :
    List Char × Bool × List Char × List (List Char) :=
  let title := dict_item.1
  let metadata := dict_item.2
  let pr := process_pdf gp metadata
  let cited_papers := if pr.1 then find_citations pr.2 all_titles metadata else []
  (title, pr.1, pr.2, cited_papers)

/-- Chunking scanner: `acc` is the reversed current chunk, the `Nat` argument
its remaining capacity; a full chunk is emitted and a fresh one started. -/
def chunksGo (n : Nat) : List α → List α → Nat → List (List α)
  | [], acc, _ => if acc.isEmpty then [] else [acc.reverse]
  | x :: xs, acc, 0 => acc.reverse :: chunksGo n xs [x] (n - 1)
  | x :: xs, acc, i + 1 => chunksGo n xs (x :: acc) i

/-- Split a list into consecutive chunks of size `n` (last one possibly
shorter). -/
def chunksOf (n : Nat) (l : List α) : List (List α) := chunksGo n l [] n

/-- `Pool.map(f, items, chunksize)` with `processes` worker processes: the
items are dispatched to the workers in chunks of `chunksize`; each chunk is
mapped by whichever worker receives it, and the per-chunk results are
collected back in input order (the `Pool.map` contract), so the worker count
influences scheduling but not the returned list. -/
def pool_map (processes chunksize : Nat) (f : α → β) (l : List α) : List β :=
  ((chunksOf chunksize l).map (List.map f)).flatten

/-- The aggregated output of the `__main__` pipeline: the edge rows
(`Source`, `Target`; the `Weight` column is the constant `"1"`), the failed
documents with their reason text, and the node rows. -/
structure PipelineOutput where
  graph : List (List Char × List Char)
  error_documents : List (List Char × List Char)
  nodes : List (List Char × Metadata)
deriving DecidableEq

/-- The `__main__` pipeline of `analyze_papers.py`: load the bibliography,
map `article_worker` over the dict items through a pool of
`worker_processes` workers with chunk size 5, then aggregate edges and
errors in result order and emit one node row per key. -/
def run_pipeline (gp : List Char → Option (List (List Char)))
    (rows : List Row) (worker_processes : Nat) : PipelineOutput :=
  let titles_dict := read_titles rows
  let title_ids := title_ids_of titles_dict
  let result := pool_map worker_processes 5 (article_worker gp title_ids) titles_dict
  let graph := result.foldl (fun acc r =>
    if r.2.1 then acc ++ r.2.2.2.map (fun paper => (r.1, paper)) else acc) []
  let error_documents := result.foldl (fun acc r =>
    if r.2.1 then acc else acc ++ [(r.1, r.2.2.1)]) []
  ⟨graph, error_documents, nodes_rows titles_dict⟩

/-- An exception raised by the page-extraction capability (e.g. a
pdfminer syntax error on a corrupted file). -/
inductive PdfExn where
  | pdfSyntaxError
deriving DecidableEq

/-- `pdf_to_text_list` under a capability that may additionally raise: the
source's `try/except TypeError` wraps only `len(pages)`, not the
`layout_scanner.get_pages` call itself, so a raised exception propagates
(`.error`) while the no-length signal is caught (`.ok none ↦ .ok (-1, [])`). -/
def pdf_to_text_listE (gp : List Char → Except PdfExn (Option (List (List Char))))
    (file_loc : List Char) : Except PdfExn (Int × List (List Char)) :=
  match gp file_loc with
  | .error e => .error e
  | .ok none => .ok (-1, [])
  | .ok (some pages) => .ok (pages.length, pages.drop (pages.length - 10))

/-- `process_pdf` under a capability that may raise: no handler exists in
`process_pdf` either, so the exception keeps propagating. -/
def process_pdfE (gp : List Char → Except PdfExn (Option (List (List Char))))
    (metadata : Metadata) : Except PdfExn (Bool × List Char) :=
  if metadata.file.length < 1 then
    .ok (false, "Missing Zotero file attachment".toList)
  else
    match first_pdf_of (metadata.file.splitOn ';') with
    | none => .ok (false, "No PDF File attached to article entry".toList)
    | some first_pdf =>
      match pdf_to_text_listE gp first_pdf with
      | .error e => .error e
      | .ok r =>
        let all_pages := joinSep ['\n'] r.2
        .ok (decide (0 < all_pages.length), all_pages)

/-- `article_worker` under a capability that may raise: the worker has no
handler, so the exception escapes the worker boundary. -/
def article_workerE (gp : List Char → Except PdfExn (Option (List (List Char))))
    (all_titles : List (List Char)) (dict_item : List Char × Metadata) :
    Except PdfExn (List Char × Bool × List Char × List (List Char)) :=
  match process_pdfE gp dict_item.2 with
  | .error e => .error e
  | .ok pr =>
    let cited_papers :=
      if pr.1 then find_citations pr.2 all_titles dict_item.2 else []
    .ok (dict_item.1, pr.1, pr.2, cited_papers)

/-- A map that fixes every member of a list leaves the list unchanged. -/
theorem map_id_of_mem {α : Type} {f : α → α} :
    ∀ {l : List α}, (∀ a ∈ l, f a = a) → l.map f = l
  | [], _ => rfl
  | a :: l, h => by
    rw [List.map_cons, h a (by simp), map_id_of_mem fun b hb => h b (by simp [hb])]

/-- Characters that can occur in normalized output (lowercase letters and the
space separator) are fixed points of every earlier normalization step. -/
theorem normalized_char_fixed {c : Char} (h : isLowerAlpha c = true ∨ c = ' ') :
    toLowerChar c = c ∧ isPunct c = false ∧ ((c == '\r') || (c == '\n')) = false ∧
      isDigitChar c = false := by
  have hn : 97 ≤ c.toNat ∧ c.toNat ≤ 122 ∨ c.toNat = 32 := by
    rcases h with h | h
    · left
      simpa only [isLowerAlpha, Bool.and_eq_true, decide_eq_true_eq] using h
    · right; subst h; rfl
  have hr : c ≠ '\r' := by
    intro h; subst h
    have : Char.toNat '\x0d' = 13 := rfl
    omega
  have hl : c ≠ '\n' := by
    intro h; subst h
    have : Char.toNat '\n' = 10 := rfl
    omega
  refine ⟨?_, ?_, ?_, ?_⟩
  · rw [toLowerChar, if_neg ?_]
    simp only [Bool.and_eq_true, decide_eq_true_eq, not_and, not_le]
    rcases hn with ⟨h1, h2⟩ | h1 <;> omega
  · simp only [isPunct, Bool.or_eq_false_iff, Bool.and_eq_false_iff, decide_eq_false_iff_not,
      not_le]
    rcases hn with ⟨h1, h2⟩ | h1 <;> omega
  · simp [hr, hl]
  · simp only [isDigitChar, Bool.and_eq_false_iff, decide_eq_false_iff_not, not_le]
    rcases hn with ⟨h1, h2⟩ | h1 <;> omega

/-- Every token the findall scanner emits is a nonempty run of lowercase
letters, provided the pending run `acc` holds lowercase letters only. -/
theorem tokenizeAux_sound (s : List Char) :
    ∀ acc : List Char, (∀ c ∈ acc, isLowerAlpha c = true) →
      ∀ t ∈ tokenizeAux s acc, t ≠ [] ∧ ∀ c ∈ t, isLowerAlpha c = true := by
  induction s with
  | nil =>
    intro acc hacc t ht
    by_cases h : acc.isEmpty
    · simp [tokenizeAux, h] at ht
    · rw [List.isEmpty_eq_true] at h
      simp [tokenizeAux, List.isEmpty_eq_true, h] at ht
      subst ht
      refine ⟨by simpa [List.reverse_eq_nil_iff] using h, fun c hc => hacc c ?_⟩
      exact List.mem_reverse.mp hc
  | cons d rest ih =>
    intro acc hacc t ht
    by_cases hd : isLowerAlpha d
    · rw [tokenizeAux, if_pos hd] at ht
      refine ih (d :: acc) ?_ t ht
      intro c hc
      rcases List.mem_cons.mp hc with rfl | hc
      · exact hd
      · exact hacc c hc
    · rw [Bool.not_eq_true] at hd
      by_cases h : acc.isEmpty
      · simp [tokenizeAux, hd, h] at ht
        exact ih [] (by simp) t ht
      · rw [List.isEmpty_eq_true] at h
        simp [tokenizeAux, hd, List.isEmpty_eq_true, h] at ht
        rcases ht with rfl | ht
        · refine ⟨by simpa [List.reverse_eq_nil_iff] using h, fun c hc => hacc c ?_⟩
          exact List.mem_reverse.mp hc
        · exact ih [] (by simp) t ht

/-- Every token of `tokenize s` is a nonempty run of lowercase letters. -/
theorem tokenize_sound (s : List Char) :
    ∀ t ∈ tokenize s, t ≠ [] ∧ ∀ c ∈ t, isLowerAlpha c = true :=
  tokenizeAux_sound s [] (by simp)

/-- Scanning a run of lowercase letters extends the pending run. -/
theorem tokenizeAux_append_alpha (t : List Char) :
    ∀ (s acc : List Char), (∀ c ∈ t, isLowerAlpha c = true) →
      tokenizeAux (t ++ s) acc = tokenizeAux s (t.reverse ++ acc) := by
  induction t with
  | nil => intro s acc _; simp
  | cons c t' ih =>
    intro s acc hall
    have hc : isLowerAlpha c = true := hall c (by simp)
    rw [List.cons_append, tokenizeAux, if_pos hc,
      ih s (c :: acc) fun b hb => hall b (by simp [hb])]
    simp [List.reverse_cons, List.append_assoc]

/-- Scanning a space closes the pending run. -/
theorem tokenizeAux_space (s acc : List Char) :
    tokenizeAux (' ' :: s) acc =
      if acc.isEmpty then tokenizeAux s [] else acc.reverse :: tokenizeAux s [] := by
  have h : isLowerAlpha ' ' = false := rfl
  rw [tokenizeAux, h]
  simp

/-- Tokenizing a nonempty run of lowercase letters yields that single run. -/
theorem tokenize_all_alpha {t : List Char} (hne : t ≠ [])
    (h : ∀ c ∈ t, isLowerAlpha c = true) : tokenize t = [t] := by
  have hrevne : t.reverse.isEmpty = false := by
    rw [Bool.eq_false_iff]
    simpa [List.isEmpty_eq_true, List.reverse_eq_nil_iff] using hne
  have h2 := tokenizeAux_append_alpha t [] [] h
  rw [List.append_nil, List.append_nil] at h2
  show tokenizeAux t [] = [t]
  rw [h2]
  simp [tokenizeAux, hrevne]

/-- Tokenizing the space-join of nonempty lowercase tokens recovers exactly
those tokens. -/
theorem tokenize_joinSep (toks : List (List Char))
    (h : ∀ t ∈ toks, t ≠ [] ∧ ∀ c ∈ t, isLowerAlpha c = true) :
    tokenize (joinSep [' '] toks) = toks := by
  induction toks with
  | nil => rfl
  | cons t ts ih =>
    obtain ⟨htne, htalpha⟩ := h t (by simp)
    have hrevne : t.reverse.isEmpty = false := by
      rw [Bool.eq_false_iff]
      simpa [List.isEmpty_eq_true, List.reverse_eq_nil_iff] using htne
    cases ts with
    | nil =>
      have hj : joinSep [' '] [t] = t := rfl
      rw [hj]
      exact tokenize_all_alpha htne htalpha
    | cons t' ts' =>
      have hsplit : joinSep [' '] (t :: t' :: ts') =
          t ++ (' ' :: joinSep [' '] (t' :: ts')) := by
        show t ++ [' '] ++ joinSep [' '] (t' :: ts') = _
        rw [List.append_assoc]
        rfl
      show tokenizeAux (joinSep [' '] (t :: t' :: ts')) [] = t :: t' :: ts'
      rw [hsplit, tokenizeAux_append_alpha t _ [] htalpha, List.append_nil,
        tokenizeAux_space, hrevne]
      simp only [Bool.false_eq_true, if_false, List.reverse_reverse]
      exact congrArg _ (ih fun u hu => h u (by simp [hu]))

/-- Membership in a separator-join: a character is in some part or in the
separator. -/
theorem mem_joinSep {c : Char} {sep : List Char} :
    ∀ {toks : List (List Char)}, c ∈ joinSep sep toks →
      (∃ t ∈ toks, c ∈ t) ∨ c ∈ sep := by
  intro toks
  induction toks with
  | nil => intro h; simp [joinSep] at h
  | cons t ts ih =>
    cases ts with
    | nil => intro h; exact Or.inl ⟨t, by simp, h⟩
    | cons t' ts' =>
      intro h
      rcases List.mem_append.mp h with h1 | h2
      · rcases List.mem_append.mp h1 with ha | hb
        · exact Or.inl ⟨t, by simp, ha⟩
        · exact Or.inr hb
      · rcases ih h2 with ⟨u, hu, hcu⟩ | hs
        · exact Or.inl ⟨u, by simp [hu], hcu⟩
        · exact Or.inr hs

/-- `pre_process` written without its `let` bindings. -/
theorem pre_process_eq (x : List Char) :
    pre_process x = joinSep [' ']
      (tokenize ((((pyLower x).filter fun c => !isPunct c).filter
        fun c => !(c == '\r' || c == '\n')).filter fun c => !isDigitChar c)) := rfl

/-- Every character of normalized output is a lowercase letter or a space. -/
theorem pre_process_chars (x : List Char) :
    ∀ c ∈ pre_process x, isLowerAlpha c = true ∨ c = ' ' := by
  intro c hc
  rw [pre_process_eq] at hc
  rcases mem_joinSep hc with ⟨t, ht, hct⟩ | hs
  · exact Or.inl ((tokenize_sound _ t ht).2 c hct)
  · simp only [List.mem_singleton] at hs
    exact Or.inr hs

/-- **C3.** `pre_process` lowercases, deletes punctuation, deletes line
breaks (fusing words split across a line break), deletes digit runs, and keeps
only runs of lowercase letters rejoined with single spaces: the result is
always a space-join of nonempty lowercase-letter tokens (hence a
space-separated, lowercase, alphabetic-only string), every output character is
a lowercase letter or a space, and degenerate input (no letters at all) yields
the empty string; deletion (not replacement) is visible in `foo\nbar ↦ foobar`,
`a.b ↦ ab` and `ab12cd ↦ abcd`. -/
theorem pre_process_normal_form :
    (∀ x : List Char, ∃ toks : List (List Char),
      (∀ t ∈ toks, t ≠ [] ∧ ∀ c ∈ t, isLowerAlpha c = true) ∧
        pre_process x = joinSep [' '] toks) ∧
    (∀ x : List Char, ∀ c ∈ pre_process x, isLowerAlpha c = true ∨ c = ' ') ∧
    pre_process "2024!? -- #1".toList = [] ∧
    pre_process "foo\nbar".toList = "foobar".toList ∧
    pre_process "a.b".toList = "ab".toList ∧
    pre_process "ab12cd".toList = "abcd".toList := by
  refine ⟨fun x => ⟨tokenize ((((pyLower x).filter fun c => !isPunct c).filter
    fun c => !(c == '\r' || c == '\n')).filter fun c => !isDigitChar c),
    tokenize_sound _, pre_process_eq x⟩, pre_process_chars, by decide, by decide, by decide,
    by decide⟩

/-- **C4.** Normalization is idempotent:
`pre_process (pre_process x) = pre_process x` for every string `x`. -/
theorem pre_process_idem (x : List Char) :
    pre_process (pre_process x) = pre_process x := by
  have hchars := pre_process_chars x
  have hfix := fun c hc => normalized_char_fixed (hchars c hc)
  have h1 : pyLower (pre_process x) = pre_process x :=
    map_id_of_mem fun c hc => (hfix c hc).1
  have h2 : (pre_process x).filter (fun c => !isPunct c) = pre_process x :=
    List.filter_eq_self.mpr fun c hc => by rw [(hfix c hc).2.1]; rfl
  have h3 : (pre_process x).filter (fun c => !(c == '\r' || c == '\n')) = pre_process x :=
    List.filter_eq_self.mpr fun c hc => by rw [(hfix c hc).2.2.1]; rfl
  have h4 : (pre_process x).filter (fun c => !isDigitChar c) = pre_process x :=
    List.filter_eq_self.mpr fun c hc => by rw [(hfix c hc).2.2.2]; rfl
  calc pre_process (pre_process x)
      = joinSep [' '] (tokenize (pre_process x)) := by
        rw [pre_process_eq (pre_process x), h1, h2, h3, h4]
    _ = pre_process x := by
        conv_lhs => rw [pre_process_eq x]
        rw [tokenize_joinSep _ (tokenize_sound _)]
        exact (pre_process_eq x).symm

/-- `List.isPrefixOf` decides the prefix decompositions. -/
theorem isPrefixOf_iff_append :
    ∀ n h : List Char, n.isPrefixOf h = true ↔ ∃ u, h = n ++ u
  | [], h => by simp [List.isPrefixOf]
  | c :: n, [] => by simp [List.isPrefixOf]
  | c :: n, d :: h => by
    simp only [List.isPrefixOf, Bool.and_eq_true, beq_iff_eq]
    constructor
    · rintro ⟨rfl, hp⟩
      obtain ⟨u, rfl⟩ := (isPrefixOf_iff_append n h).mp hp
      exact ⟨u, rfl⟩
    · rintro ⟨u, hu⟩
      injection hu with h1 h2
      subst h1
      exact ⟨rfl, (isPrefixOf_iff_append n h).mpr ⟨u, h2⟩⟩

/-- Python's `in` holds exactly on the contiguous-substring decompositions. -/
theorem isSubstringOf_iff (n : List Char) :
    ∀ h : List Char, isSubstringOf n h = true ↔ ∃ p q, h = p ++ n ++ q := by
  intro h
  induction h with
  | nil =>
    simp only [isSubstringOf, List.isEmpty_eq_true]
    constructor
    · rintro rfl; exact ⟨[], [], rfl⟩
    · rintro ⟨p, q, hpq⟩
      obtain ⟨h1, _⟩ := List.append_eq_nil.mp hpq.symm
      exact (List.append_eq_nil.mp h1).2
  | cons d rest ih =>
    simp only [isSubstringOf, Bool.or_eq_true, ih, isPrefixOf_iff_append]
    constructor
    · rintro (⟨u, hu⟩ | ⟨p, q, rfl⟩)
      · exact ⟨[], u, by simpa using hu⟩
      · exact ⟨d :: p, q, rfl⟩
    · rintro ⟨p, q, hpq⟩
      cases p with
      | nil => exact Or.inl ⟨q, by simpa using hpq⟩
      | cons e p' =>
        injection hpq with h1 h2
        exact Or.inr ⟨p', q, h2⟩

/-- `find_citations` written without its `let` bindings. -/
theorem find_citations_eq (paper_text : List Char) (all_titles : List (List Char))
    (metadata : Metadata) :
    find_citations paper_text all_titles metadata = all_titles.filter fun title =>
      !(title == pre_process metadata.title) &&
        isSubstringOf (removeSpaces title) (removeSpaces (pre_process paper_text)) := rfl

/-- **C1.** For a key of the title-key set other than the paper's own key, the
Citation Matcher reports it as cited iff the key with spaces removed is a
contiguous substring of the normalized paper text with spaces removed, and the
returned list is a sublist of the key set (enumeration order preserved). -/
theorem find_citations_spec (paper_text : List Char) (all_titles : List (List Char))
    (metadata : Metadata) (key : List Char) (hmem : key ∈ all_titles)
    (hne : key ≠ pre_process metadata.title) :
    (find_citations paper_text all_titles metadata).Sublist all_titles ∧
    (key ∈ find_citations paper_text all_titles metadata ↔
      ∃ p q, removeSpaces (pre_process paper_text) = p ++ removeSpaces key ++ q) := by
  refine ⟨by rw [find_citations_eq]; exact List.filter_sublist _, ?_⟩
  rw [find_citations_eq, List.mem_filter]
  have hb : (!(key == pre_process metadata.title)) = true := by
    simp [hne]
  simp only [hmem, true_and, Bool.and_eq_true, hb, isSubstringOf_iff]

/-- `article_worker` written without its `let` bindings. -/
theorem article_worker_eq (gp : List Char → Option (List (List Char)))
    (ts : List (List Char)) (item : List Char × Metadata) :
    article_worker gp ts item =
      (item.1, (process_pdf gp item.2).1, (process_pdf gp item.2).2,
        if (process_pdf gp item.2).1 then
          find_citations (process_pdf gp item.2).2 ts item.2 else []) := rfl

/-- The keys of a dict after an insert: unchanged on overwrite, the new key
appended otherwise. -/
theorem dictInsert_keys (k : List Char) (v : Metadata) (d : List (List Char × Metadata)) :
    (dictInsert k v d).map Prod.fst =
      if d.any (fun p => p.1 == k) then d.map Prod.fst else d.map Prod.fst ++ [k] := by
  by_cases hany : (d.any fun p => p.1 == k) = true
  · rw [dictInsert, if_pos hany, if_pos hany, List.map_map]
    have hfun : (Prod.fst ∘ fun p : List Char × Metadata =>
        if p.1 == k then (p.1, v) else p) = Prod.fst := by
      funext p
      simp only [Function.comp_apply]
      split <;> rfl
    rw [hfun]
  · rw [dictInsert, if_neg hany, if_neg hany]
    simp

/-- Key membership after a dict insert. -/
theorem mem_dictInsert_keys (k k' : List Char) (v : Metadata)
    (d : List (List Char × Metadata)) :
    k ∈ (dictInsert k' v d).map Prod.fst ↔ k ∈ d.map Prod.fst ∨ k = k' := by
  rw [dictInsert_keys]
  by_cases hany : (d.any fun p => p.1 == k') = true
  · rw [if_pos hany]
    constructor
    · exact Or.inl
    · rintro (h | rfl)
      · exact h
      · obtain ⟨p, hp, hpk⟩ := List.any_eq_true.mp hany
        exact List.mem_map.mpr ⟨p, hp, beq_iff_eq.mp hpk⟩
  · rw [if_neg hany]
    simp only [List.mem_append, List.mem_singleton]

/-- A dict insert keeps the keys duplicate-free. -/
theorem dictInsert_keys_nodup (k : List Char) (v : Metadata)
    (d : List (List Char × Metadata)) (h : (d.map Prod.fst).Nodup) :
    ((dictInsert k v d).map Prod.fst).Nodup := by
  rw [dictInsert_keys]
  by_cases hany : (d.any fun p => p.1 == k) = true
  · rwa [if_pos hany]
  · rw [if_neg hany]
    have hk : k ∉ d.map Prod.fst := by
      intro hkmem
      obtain ⟨p, hp, hpk⟩ := List.mem_map.mp hkmem
      exact hany (List.any_eq_true.mpr ⟨p, hp, beq_iff_eq.mpr hpk⟩)
    rw [List.nodup_append]
    refine ⟨h, List.nodup_singleton k, ?_⟩
    intro a ha hb
    rw [List.mem_singleton] at hb
    subst hb
    exact hk ha

/-- The loaded dict binds every key to a metadata whose title normalizes back
to that key. -/
theorem read_titles_key_eq (rows : List Row) :
    ∀ p ∈ read_titles rows, p.1 = pre_process p.2.title := by
  rw [read_titles]
  have main : ∀ d : List (List Char × Metadata), (∀ p ∈ d, p.1 = pre_process p.2.title) →
      ∀ p ∈ rows.foldl (fun d r => dictInsert (pre_process r.title) (rowMetadata r) d) d,
        p.1 = pre_process p.2.title := by
    induction rows with
    | nil => intro d hd; exact hd
    | cons r rows ih =>
      intro d hd
      rw [List.foldl_cons]
      refine ih _ ?_
      intro p hp
      rw [dictInsert] at hp
      split at hp
      · obtain ⟨q, hq, rfl⟩ := List.mem_map.mp hp
        by_cases hqk : (q.1 == pre_process r.title) = true
        · rw [if_pos hqk]
          exact beq_iff_eq.mp hqk
        · rw [if_neg hqk]
          exact hd q hq
      · rcases List.mem_append.mp hp with h | h
        · exact hd p h
        · rw [List.mem_singleton] at h
          subst h
          rfl
  exact main [] fun p hp => absurd hp (List.not_mem_nil p)

/-- The keys of the loaded dict are exactly the normalized titles of the
input rows. -/
theorem mem_read_titles_keys (rows : List Row) (k : List Char) :
    k ∈ (read_titles rows).map Prod.fst ↔ ∃ r ∈ rows, pre_process r.title = k := by
  rw [read_titles]
  have main : ∀ d : List (List Char × Metadata),
      k ∈ (rows.foldl (fun d r => dictInsert (pre_process r.title) (rowMetadata r) d) d).map
        Prod.fst ↔ k ∈ d.map Prod.fst ∨ ∃ r ∈ rows, pre_process r.title = k := by
    induction rows with
    | nil =>
      intro d
      simp only [List.foldl_nil, List.not_mem_nil, false_and, exists_false, or_false,
        exists_const]
    | cons r rows ih =>
      intro d
      rw [List.foldl_cons, ih, mem_dictInsert_keys]
      constructor
      · rintro ((h | rfl) | ⟨r', hr', hk⟩)
        · exact Or.inl h
        · exact Or.inr ⟨r, List.mem_cons_self r rows, rfl⟩
        · exact Or.inr ⟨r', List.mem_cons_of_mem r hr', hk⟩
      · rintro (h | ⟨r', hr', hk⟩)
        · exact Or.inl (Or.inl h)
        · rcases List.mem_cons.mp hr' with rfl | hr'
          · exact Or.inl (Or.inr hk.symm)
          · exact Or.inr ⟨r', hr', hk⟩
  rw [main []]
  simp only [List.map_nil, List.not_mem_nil, false_or]

/-- The loaded dict has duplicate-free keys. -/
theorem read_titles_keys_nodup (rows : List Row) :
    ((read_titles rows).map Prod.fst).Nodup := by
  rw [read_titles]
  have main : ∀ d : List (List Char × Metadata), (d.map Prod.fst).Nodup →
      ((rows.foldl (fun d r => dictInsert (pre_process r.title) (rowMetadata r) d) d).map
        Prod.fst).Nodup := by
    induction rows with
    | nil => intro d hd; exact hd
    | cons r rows ih =>
      intro d hd
      rw [List.foldl_cons]
      exact ih _ (dictInsert_keys_nodup _ _ _ hd)
  exact main [] List.nodup_nil

/-- On a duplicate-free list, a predicate that singles out exactly one member
counts exactly one element. -/
theorem countP_eq_one_of_nodup {α : Type} (p : α → Bool) (a : α) :
    ∀ l : List α, l.Nodup → a ∈ l → p a = true → (∀ b ∈ l, p b = true → b = a) →
      l.countP p = 1 := by
  intro l
  induction l with
  | nil => intro _ ha; simp at ha
  | cons x xs ih =>
    intro hn ha hpa huniq
    rw [List.countP_cons]
    rcases List.mem_cons.mp ha with rfl | ha'
    · rw [if_pos hpa]
      have hz : xs.countP p = 0 := by
        rw [List.countP_eq_zero]
        intro b hb hpb
        have := huniq b (List.mem_cons_of_mem a hb) hpb
        subst this
        exact (List.nodup_cons.mp hn).1 hb
      omega
    · have hpx : ¬p x = true := by
        intro hpx
        have := huniq x (List.mem_cons_self x xs) hpx
        subst this
        exact (List.nodup_cons.mp hn).1 ha'
      rw [if_neg hpx]
      have := ih (List.nodup_cons.mp hn).2 ha' hpa
        fun b hb hpb => huniq b (List.mem_cons_of_mem x hb) hpb
      omega

/-- Flattening the chunking scanner recovers the pending chunk and the rest of
the input. -/
theorem chunksGo_flatten {α : Type} (n : Nat) :
    ∀ (l acc : List α) (i : Nat), (chunksGo n l acc i).flatten = acc.reverse ++ l := by
  intro l
  induction l with
  | nil =>
    intro acc i
    by_cases h : acc.isEmpty = true
    · rw [List.isEmpty_eq_true] at h
      subst h
      simp [chunksGo]
    · simp [chunksGo, h]
  | cons x xs ih =>
    intro acc i
    cases i with
    | zero =>
      rw [chunksGo]
      simp [ih, List.append_assoc]
    | succ j =>
      rw [chunksGo, ih]
      simp

/-- `Pool.map` returns exactly the ordered map of the worker function over the
inputs, for every worker count and chunk size. -/
theorem pool_map_eq_map {α β : Type} (procs chunksize : Nat) (f : α → β) (l : List α) :
    pool_map procs chunksize f l = l.map f := by
  rw [pool_map, ← List.map_flatten, chunksOf, chunksGo_flatten]
  simp

/-- The pipeline with the pool replaced by its input-order contract. -/
theorem run_pipeline_eq (gp : List Char → Option (List (List Char))) (rows : List Row)
    (n : Nat) :
    run_pipeline gp rows n =
      ⟨(((read_titles rows).map
            (article_worker gp (title_ids_of (read_titles rows)))).foldl
          (fun acc r =>
            if r.2.1 then acc ++ r.2.2.2.map (fun paper => (r.1, paper)) else acc) []),
        (((read_titles rows).map
            (article_worker gp (title_ids_of (read_titles rows)))).foldl
          (fun acc r => if r.2.1 then acc else acc ++ [(r.1, r.2.2.1)]) []),
        nodes_rows (read_titles rows)⟩ := by
  simp only [run_pipeline, pool_map_eq_map]

/-- The graph component of the pipeline output. -/
theorem run_pipeline_graph (gp : List Char → Option (List (List Char))) (rows : List Row)
    (n : Nat) :
    (run_pipeline gp rows n).graph =
      (((read_titles rows).map
          (article_worker gp (title_ids_of (read_titles rows)))).foldl
        (fun acc r =>
          if r.2.1 then acc ++ r.2.2.2.map (fun paper => (r.1, paper)) else acc) []) := by
  rw [run_pipeline_eq]

/-- The nodes component of the pipeline output. -/
theorem run_pipeline_nodes (gp : List Char → Option (List (List Char))) (rows : List Row)
    (n : Nat) :
    (run_pipeline gp rows n).nodes = nodes_rows (read_titles rows) := by
  rw [run_pipeline_eq]

/-- Membership in a conditional-append fold. -/
theorem mem_foldl_append_if {α β : Type} (c : α → Bool) (g : α → List β) :
    ∀ (l : List α) (init : List β) (b : β),
      b ∈ l.foldl (fun acc r => if c r then acc ++ g r else acc) init ↔
        b ∈ init ∨ ∃ r ∈ l, c r = true ∧ b ∈ g r := by
  intro l
  induction l with
  | nil => intro init b; simp
  | cons a l ih =>
    intro init b
    rw [List.foldl_cons]
    by_cases hc : c a = true
    · rw [if_pos hc, ih]
      simp only [List.mem_append, List.mem_cons]
      constructor
      · rintro ((h | h) | ⟨r, hr, hcr, hbr⟩)
        · exact Or.inl h
        · exact Or.inr ⟨a, Or.inl rfl, hc, h⟩
        · exact Or.inr ⟨r, Or.inr hr, hcr, hbr⟩
      · rintro (h | ⟨r, rfl | hr, hcr, hbr⟩)
        · exact Or.inl (Or.inl h)
        · exact Or.inl (Or.inr hbr)
        · exact Or.inr ⟨r, hr, hcr, hbr⟩
    · rw [if_neg hc, ih]
      simp only [List.mem_cons]
      constructor
      · rintro (h | ⟨r, hr, hcr, hbr⟩)
        · exact Or.inl h
        · exact Or.inr ⟨r, Or.inr hr, hcr, hbr⟩
      · rintro (h | ⟨r, rfl | hr, hcr, hbr⟩)
        · exact Or.inl h
        · exact absurd hcr hc
        · exact Or.inr ⟨r, hr, hcr, hbr⟩

/-- An edge is in the aggregated graph exactly when some loaded entry's PDF
extraction succeeded and the Citation Matcher reported the edge's target among
that entry's citations. -/
theorem mem_graph_iff (gp : List Char → Option (List (List Char))) (rows : List Row)
    (n : Nat) (edge : List Char × List Char) :
    edge ∈ (run_pipeline gp rows n).graph ↔
      ∃ item ∈ read_titles rows, (process_pdf gp item.2).1 = true ∧
        ∃ paper ∈ find_citations (process_pdf gp item.2).2
            (title_ids_of (read_titles rows)) item.2, edge = (item.1, paper) := by
  rw [run_pipeline_graph]
  refine Iff.trans (mem_foldl_append_if
    (fun r : List Char × Bool × List Char × List (List Char) => r.2.1)
    (fun r => r.2.2.2.map fun paper => (r.1, paper)) _ [] edge) ?_
  simp only [List.not_mem_nil, false_or]
  constructor
  · rintro ⟨r, hr, hsucc, hedge⟩
    obtain ⟨item, hitem, rfl⟩ := List.mem_map.mp hr
    simp only [article_worker_eq] at hsucc hedge
    rw [if_pos hsucc] at hedge
    obtain ⟨paper, hpaper, rfl⟩ := List.mem_map.mp hedge
    exact ⟨item, hitem, hsucc, paper, hpaper, rfl⟩
  · rintro ⟨item, hitem, hsucc, paper, hpaper, rfl⟩
    refine ⟨article_worker gp (title_ids_of (read_titles rows)) item,
      List.mem_map.mpr ⟨item, hitem, rfl⟩, ?_, ?_⟩
    · simpa only [article_worker_eq] using hsucc
    · simp only [article_worker_eq]
      rw [if_pos hsucc]
      exact List.mem_map.mpr ⟨paper, hpaper, rfl⟩

/-- `process_pdf` once a PDF attachment has been selected. -/
theorem process_pdf_some (gp : List Char → Option (List (List Char))) (md : Metadata)
    (p : List Char) (hlen : ¬md.file.length < 1)
    (hp : first_pdf_of (md.file.splitOn ';') = some p) :
    process_pdf gp md =
      (decide (0 < (joinSep ['\n'] (pdf_to_text_list gp p).2).length),
        joinSep ['\n'] (pdf_to_text_list gp p).2) := by
  have hmatch : process_pdf gp md = match first_pdf_of (md.file.splitOn ';') with
      | none => (false, "No PDF File attached to article entry".toList)
      | some first_pdf =>
        (decide (0 < (joinSep ['\n'] (pdf_to_text_list gp first_pdf).2).length),
          joinSep ['\n'] (pdf_to_text_list gp first_pdf).2) := by
    rw [process_pdf, if_neg hlen]
  rw [hmatch, hp]

/-- **C2.** The Citation Matcher never reports an entry's own normalized key,
and consequently every edge of the aggregated graph has a source different
from its target. -/
theorem no_self_citation (pt : List Char) (ts : List (List Char)) (md : Metadata)
    (gp : List Char → Option (List (List Char))) (rows : List Row) (n : Nat)
    (edge : List Char × List Char) (he : edge ∈ (run_pipeline gp rows n).graph) :
    pre_process md.title ∉ find_citations pt ts md ∧ edge.1 ≠ edge.2 := by
  constructor
  · intro hmem
    rw [find_citations_eq] at hmem
    obtain ⟨_, hcond⟩ := List.mem_filter.mp hmem
    simp at hcond
  · obtain ⟨item, hitem, hsucc, paper, hpaper, rfl⟩ := (mem_graph_iff gp rows n edge).mp he
    have hkey := read_titles_key_eq rows item hitem
    rw [find_citations_eq] at hpaper
    obtain ⟨_, hcond⟩ := List.mem_filter.mp hpaper
    rw [Bool.and_eq_true] at hcond
    have hne : paper ≠ pre_process item.2.title := by
      have h := hcond.1
      rw [Bool.not_eq_true', beq_eq_false_iff_ne] at h
      exact h
    intro heq
    simp only at heq
    exact hne (heq.symm.trans hkey)

/-- **C8.** The nodes table does not depend on the extraction capability or
the worker count, its key set is exactly the set of normalized titles of the
input rows, and every such key appears exactly once as a nodes row. -/
theorem nodes_table_complete (rows : List Row) (k : List Char)
    (gp gp' : List Char → Option (List (List Char))) (n n' : Nat) :
    (run_pipeline gp rows n).nodes = (run_pipeline gp' rows n').nodes ∧
    (k ∈ title_ids_of (read_titles rows) ↔ ∃ r ∈ rows, pre_process r.title = k) ∧
    ((∃ r ∈ rows, pre_process r.title = k) →
      ((run_pipeline gp rows n).nodes).countP (fun row => decide (row.1 = k)) = 1) := by
  refine ⟨by rw [run_pipeline_nodes, run_pipeline_nodes], mem_read_titles_keys rows k, ?_⟩
  intro hex
  rw [run_pipeline_nodes, nodes_rows, List.countP_map]
  have hcomp : ((fun row : List Char × Metadata => decide (row.1 = k)) ∘
      fun title => (title, dict_get (read_titles rows) title)) =
      fun title => decide (title = k) := rfl
  rw [hcomp]
  have hk : k ∈ title_ids_of (read_titles rows) := (mem_read_titles_keys rows k).mpr hex
  exact countP_eq_one_of_nodup _ k _ (read_titles_keys_nodup rows) hk (by simp)
    fun b _ hb => of_decide_eq_true hb

/-- **C9.** Running the pipeline with worker count 1 and with worker count 4
on the same input produces identical outputs — in particular identical edge
sets and identical node sets. -/
theorem pipeline_worker_count_invariant (gp : List Char → Option (List (List Char)))
    (rows : List Row) :
    run_pipeline gp rows 1 = run_pipeline gp rows 4 ∧
    (∀ e, e ∈ (run_pipeline gp rows 1).graph ↔ e ∈ (run_pipeline gp rows 4).graph) ∧
    (∀ nd, nd ∈ (run_pipeline gp rows 1).nodes ↔ nd ∈ (run_pipeline gp rows 4).nodes) := by
  have h : run_pipeline gp rows 1 = run_pipeline gp rows 4 := by
    rw [run_pipeline_eq, run_pipeline_eq]
  exact ⟨h, fun e => by rw [h], fun nd => by rw [h]⟩

/-- **C10.** If the title-key set contains the empty key (a title normalizing
to nothing), the Citation Matcher reports it for every paper whose own key is
nonempty, and in the pipeline every successfully extracted entry with a
nonempty key gains an edge to the empty-key node. -/
theorem empty_key_always_cited (pt : List Char) (ts : List (List Char)) (md : Metadata)
    (h1 : [] ∈ ts) (h2 : pre_process md.title ≠ [])
    (gp : List Char → Option (List (List Char))) (rows : List Row) (n : Nat)
    (item : List Char × Metadata) (hitem : item ∈ read_titles rows) (hkey : item.1 ≠ [])
    (hnil : [] ∈ title_ids_of (read_titles rows))
    (hsucc : (process_pdf gp item.2).1 = true) :
    [] ∈ find_citations pt ts md ∧
      (item.1, ([] : List Char)) ∈ (run_pipeline gp rows n).graph := by
  have hgen : ∀ (pt' : List Char) (ts' : List (List Char)) (md' : Metadata), [] ∈ ts' →
      pre_process md'.title ≠ [] → [] ∈ find_citations pt' ts' md' := by
    intro pt' ts' md' hmem hne
    rw [find_citations_eq, List.mem_filter]
    refine ⟨hmem, ?_⟩
    rw [Bool.and_eq_true]
    constructor
    · rw [Bool.not_eq_true', beq_eq_false_iff_ne]
      exact fun h => hne h.symm
    · rw [isSubstringOf_iff]
      exact ⟨[], removeSpaces (pre_process pt'), rfl⟩
  refine ⟨hgen pt ts md h1 h2, ?_⟩
  rw [mem_graph_iff]
  refine ⟨item, hitem, hsucc, [], ?_, rfl⟩
  refine hgen _ _ _ hnil ?_
  rw [← read_titles_key_eq rows item hitem]
  exact hkey

/-- **C6.** Attachment selection: an empty `file` field yields the
missing-attachment failure; a nonempty `file` with no `;`-token whose
lowercased, trimmed form ends in `.pdf` yields the no-PDF failure; otherwise
the first such token, in order, is the path handed to the extraction
capability. -/
theorem process_pdf_attachment_selection (md : Metadata)
    (gp : List Char → Option (List (List Char))) :
    (md.file = [] → process_pdf gp md = (false, "Missing Zotero file attachment".toList)) ∧
    (md.file ≠ [] →
      (∀ f ∈ md.file.splitOn ';', pdfSuffix.isSuffixOf (pyStrip (pyLower f)) = false) →
      process_pdf gp md = (false, "No PDF File attached to article entry".toList)) ∧
    (∀ p, first_pdf_of (md.file.splitOn ';') = some p →
      pdfSuffix.isSuffixOf (pyStrip (pyLower p)) = true ∧
      (∃ before after, md.file.splitOn ';' = before ++ p :: after ∧
        ∀ q ∈ before, pdfSuffix.isSuffixOf (pyStrip (pyLower q)) = false) ∧
      ∀ gp' : List Char → Option (List (List Char)), gp p = gp' p →
        process_pdf gp md = process_pdf gp' md) := by
  refine ⟨?_, ?_, ?_⟩
  · intro h
    have hlen : md.file.length < 1 := by simp [h]
    rw [process_pdf, if_pos hlen]
  · intro hne hall
    have hlen : ¬md.file.length < 1 := by
      cases hf : md.file with
      | nil => exact absurd hf hne
      | cons a l => simp
    have hnone : first_pdf_of (md.file.splitOn ';') = none := by
      rw [first_pdf_of, List.find?_eq_none]
      intro f hf
      rw [hall f hf]
      simp
    have hmatch : process_pdf gp md = match first_pdf_of (md.file.splitOn ';') with
        | none => ((false, "No PDF File attached to article entry".toList) : Bool × List Char)
        | some first_pdf =>
          (decide (0 < (joinSep ['\n'] (pdf_to_text_list gp first_pdf).2).length),
            joinSep ['\n'] (pdf_to_text_list gp first_pdf).2) := by
      rw [process_pdf, if_neg hlen]
    rw [hmatch, hnone]
  · intro p hp
    rw [first_pdf_of] at hp
    obtain ⟨hpdf, as, bs, hsplit, hprev⟩ := List.find?_eq_some.mp hp
    refine ⟨hpdf, ⟨as, bs, hsplit, ?_⟩, ?_⟩
    · intro q hq
      have h := hprev q hq
      rwa [Bool.not_eq_true'] at h
    · intro gp' heq
      by_cases hlen : md.file.length < 1
      · rw [process_pdf, if_pos hlen, process_pdf, if_pos hlen]
      · rw [process_pdf_some gp md p hlen hp, process_pdf_some gp' md p hlen hp,
          pdf_to_text_list, pdf_to_text_list, heq]

/-- **C7.** For a document whose page list has more than 10 pages, the
extractor reports the original total as the page count, the retained pages
are exactly the last 10 (the input splits as the dropped earlier part plus
the retained part), and the text blob is the newline-join of exactly those
last 10 pages. -/
theorem trailing_pages_truncation (gp : List Char → Option (List (List Char)))
    (loc : List Char) (pages : List (List Char)) (md : Metadata)
    (hgp : gp loc = some pages) (hlen : 10 < pages.length)
    (hsel : first_pdf_of (md.file.splitOn ';') = some loc) (hfile : md.file ≠ []) :
    pdf_to_text_list gp loc = ((pages.length : Int), pages.drop (pages.length - 10)) ∧
    (pages.drop (pages.length - 10)).length = 10 ∧
    pages.take (pages.length - 10) ++ pages.drop (pages.length - 10) = pages ∧
    (process_pdf gp md).2 = joinSep ['\n'] (pages.drop (pages.length - 10)) := by
  have h1 : pdf_to_text_list gp loc = ((pages.length : Int), pages.drop (pages.length - 10)) := by
    rw [pdf_to_text_list, hgp]
  have hlen' : ¬md.file.length < 1 := by
    cases hf : md.file with
    | nil => exact absurd hf hfile
    | cons a l => simp
  refine ⟨h1, ?_, List.take_append_drop _ _, ?_⟩
  · rw [List.length_drop]
    omega
  · rw [process_pdf_some gp md loc hlen' hsel, h1]

/-- A capability that raises on every path (e.g. pdfminer hitting a corrupted
file). -/
def gpThrow : List Char → Except PdfExn (Option (List (List Char))) :=
  fun _ => Except.error PdfExn.pdfSyntaxError

/-- An entry with a single well-formed `.pdf` attachment path. -/
def mdPdf : Metadata := ⟨"b".toList, [], "b.pdf".toList, []⟩

/-- **C5 counterexample.** An exception raised by the extraction capability
escapes `article_worker` (nothing catches it: the `try/except TypeError`
covers only `len(pages)`), and the caught error-signal failure is
byte-identical to the empty-extracted-text failure — its reason text is the
empty string, not a distinct `ParseError` reason. -/
theorem worker_exception_escapes :
    article_workerE gpThrow ["b".toList] ("b".toList, mdPdf) =
        Except.error PdfExn.pdfSyntaxError ∧
      process_pdf (fun _ => none) mdPdf = process_pdf (fun _ => some [[]]) mdPdf ∧
      process_pdf (fun _ => none) mdPdf = (false, []) :=
  ⟨rfl, rfl, rfl⟩

/-- **C5 amended.** When the capability signals an error by returning a
length-less value on the selected path, the worker catches the `TypeError`
and returns a failure, but the failure's text is the empty string — identical
to the empty-extracted-text failure, with no distinct `ParseError` reason —
and an exception raised by the extraction call itself propagates uncaught out
of `process_pdf`. -/
theorem parse_error_handling (gp : List Char → Option (List (List Char)))
    (md : Metadata) (p : List Char) (hfile : md.file ≠ [])
    (hsel : first_pdf_of (md.file.splitOn ';') = some p) (herr : gp p = none) :
    pdf_to_text_list gp p = (-1, []) ∧
    process_pdf gp md = (false, []) ∧
    ∀ (gpE : List Char → Except PdfExn (Option (List (List Char)))) (e : PdfExn),
      gpE p = Except.error e → process_pdfE gpE md = Except.error e := by
  have hlen : ¬md.file.length < 1 := by
    cases hf : md.file with
    | nil => exact absurd hf hfile
    | cons a l => simp
  have h1 : pdf_to_text_list gp p = (-1, []) := by rw [pdf_to_text_list, herr]
  refine ⟨h1, ?_, ?_⟩
  · rw [process_pdf_some gp md p hlen hsel, h1]
    rfl
  · intro gpE e he
    have h2 : pdf_to_text_listE gpE p = Except.error e := by rw [pdf_to_text_listE, he]
    have hmatch : process_pdfE gpE md =
        match pdf_to_text_listE gpE p with
        | Except.error err => Except.error err
        | Except.ok r =>
          Except.ok (decide (0 < (joinSep ['\n'] r.2).length), joinSep ['\n'] r.2) := by
      rw [process_pdfE, if_neg hlen, hsel]
    rw [hmatch, h2]

/-- Fixture: an entry with no file attachment. -/
def rowA : Row := ⟨"2001".toList, "Smith, Ann".toList, "Rising Seas".toList, []⟩

/-- Fixture: an entry with a PDF attachment whose text mentions `risingseas`. -/
def rowB : Row :=
  ⟨"2002".toList, "Jones, Bo".toList, "Coastal Adaptation".toList, "b.pdf".toList⟩

/-- Fixture: an entry whose title normalizes to the empty key. -/
def rowC : Row := ⟨"2003".toList, "Nemo, Cap".toList, "123".toList, []⟩

/-- Fixture capability: one page of text for `b.pdf`, the error signal
elsewhere. -/
def gpW : List Char → Option (List (List Char)) :=
  fun loc =>
    if loc = "b.pdf".toList then some ["see risingseas and more".toList] else none

/-- Witness for the Citation Matcher specification at a concrete input. -/
theorem find_citations_spec_witness :
    (find_citations "discussing sealevelrise here".toList ["sea level rise".toList]
        ⟨"My Paper".toList, [], [], []⟩).Sublist ["sea level rise".toList] ∧
    ("sea level rise".toList ∈
        find_citations "discussing sealevelrise here".toList ["sea level rise".toList]
          ⟨"My Paper".toList, [], [], []⟩ ↔
      ∃ p q, removeSpaces (pre_process "discussing sealevelrise here".toList) =
        p ++ removeSpaces "sea level rise".toList ++ q) :=
  find_citations_spec "discussing sealevelrise here".toList ["sea level rise".toList]
    ⟨"My Paper".toList, [], [], []⟩ "sea level rise".toList (by decide) (by decide)

/-- Witness for the no-self-citation theorem at a concrete pipeline run. -/
theorem no_self_citation_witness :
    pre_process "Rising Seas".toList ∉
        find_citations "x".toList ["rising seas".toList]
          ⟨"Rising Seas".toList, [], [], []⟩ ∧
      ("coastal adaptation".toList, "rising seas".toList).1 ≠
        ("coastal adaptation".toList, "rising seas".toList).2 :=
  no_self_citation "x".toList ["rising seas".toList] ⟨"Rising Seas".toList, [], [], []⟩
    gpW [rowA, rowB] 4 ("coastal adaptation".toList, "rising seas".toList) (by decide)

/-- Witness for the amended parse-error behaviour at a concrete input. -/
theorem parse_error_handling_witness :
    pdf_to_text_list (fun _ => none) "b.pdf".toList = (-1, []) ∧
    process_pdf (fun _ => none) ⟨"b".toList, [], "b.pdf".toList, []⟩ = (false, []) ∧
    ∀ (gpE : List Char → Except PdfExn (Option (List (List Char)))) (e : PdfExn),
      gpE "b.pdf".toList = Except.error e →
        process_pdfE gpE ⟨"b".toList, [], "b.pdf".toList, []⟩ = Except.error e :=
  parse_error_handling (fun _ => none) ⟨"b".toList, [], "b.pdf".toList, []⟩
    "b.pdf".toList (by decide) (by decide) rfl

/-- Fixture: eleven one-character pages. -/
def pages11 : List (List Char) :=
  [['a'], ['b'], ['c'], ['d'], ['e'], ['f'], ['g'], ['h'], ['i'], ['j'], ['k']]

/-- Fixture capability returning the eleven pages on every path. -/
def gp11 : List Char → Option (List (List Char)) := fun _ => some pages11

/-- Fixture: an entry whose attachment is `x.pdf`. -/
def md11 : Metadata := ⟨"T".toList, [], "x.pdf".toList, []⟩

/-- Witness for trailing-page truncation on an eleven-page document. -/
theorem trailing_pages_truncation_witness :
    pdf_to_text_list gp11 "x.pdf".toList =
        ((pages11.length : Int), pages11.drop (pages11.length - 10)) ∧
      (pages11.drop (pages11.length - 10)).length = 10 ∧
      pages11.take (pages11.length - 10) ++ pages11.drop (pages11.length - 10) = pages11 ∧
      (process_pdf gp11 md11).2 = joinSep ['\n'] (pages11.drop (pages11.length - 10)) :=
  trailing_pages_truncation gp11 "x.pdf".toList pages11 md11 rfl (by decide) (by decide)
    (by decide)

/-- Witness for the empty-key claim on a concrete pipeline run. -/
theorem empty_key_always_cited_witness :
    [] ∈ find_citations "x".toList [([] : List Char)] ⟨"Rising Seas".toList, [], [], []⟩ ∧
      (("coastal adaptation".toList,
          (⟨"Coastal Adaptation".toList, "Jones, Bo".toList, "b.pdf".toList,
            "2002".toList⟩ : Metadata)).1, ([] : List Char)) ∈
        (run_pipeline gpW [rowC, rowB] 4).graph :=
  empty_key_always_cited "x".toList [([] : List Char)] ⟨"Rising Seas".toList, [], [], []⟩
    (by decide) (by decide) gpW [rowC, rowB] 4
    ("coastal adaptation".toList,
      ⟨"Coastal Adaptation".toList, "Jones, Bo".toList, "b.pdf".toList, "2002".toList⟩)
    (by decide) (by decide) (by decide) (by decide)

example : pre_process "Rising Seas!".toList = "rising seas".toList := by decide
example : pre_process "2024!? -- #1".toList = [] := by decide
example : pre_process "foo\nbar".toList = "foobar".toList := by decide
example : pre_process "a.b".toList = "ab".toList := by decide
example : pre_process "  Sea-Level   Rise 2019\r\n".toList = "sealevel rise".toList := by
  decide

end AnalyzePapers
